import Mathlib

/-!
Verification development for the vocabulary-PDF study tool
(`pdf_parser.py` and `app.py`).

The embedding below translates `parse_text_to_chapters` (pdf_parser.py,
lines 21-125), `generate_quiz_questions` (app.py, lines 92-129) and the
grading loop of `submit_quiz` (app.py, lines 174-191) into Lean.

Modelling conventions:

* Strings are Lean `String`s, processed as `List Char`.
* Python `\s` (whitespace) is modelled over the ASCII whitespace
  characters space, tab, newline, carriage return, vertical tab and form
  feed; Python `\w` (word characters) is modelled as ASCII alphanumerics,
  the underscore, and the Hangul-syllable block U+AC00..U+D7A3 (the
  scripts the program, its regexes and its tests actually use).
* The two compiled regexes are not run by a general regex engine;
  instead the exact backtracking behaviour of each pattern (leftmost
  match, greedy and lazy quantifier order, the `(?<=\S)` look-behind,
  the `re.IGNORECASE` flag) was derived by hand and is implemented
  directly.  Each derivation is documented at the definition.
* Fallible operations (`list[0]`, `list.pop(0)`, `random.sample` with an
  out-of-range count) are modelled with `Option`: `none` means the
  Python code raises.
* Randomness (`random.sample`, `random.shuffle`) is modelled by an
  explicit `Rng` record of deterministic functions; theorems about the
  quiz generator quantify over all records satisfying the contracts that
  the real library functions satisfy (`SampleSpec`, `ShuffleSpec`).
-/

/-- Python `\s` restricted to ASCII: the six whitespace characters. -/
def isPySpace (c : Char) : Bool :=
  c = ' ' || c = '\t' || c = '\n' || c = '\r' || c = '\x0b' || c = '\x0c'

/-- Python `\w` restricted to the scripts in use: ASCII alphanumerics,
underscore, and the Hangul syllable block U+AC00..U+D7A3. -/
def isWordChar (c : Char) : Bool :=
  c.isAlphanum || c = '_' || (0xAC00 ≤ c.toNat && c.toNat ≤ 0xD7A3)

/-- Character class of group 1 of `chapter_title_pattern`:
`[\w\d.\-\s()\[\]']` (word characters, digits, period, hyphen,
whitespace, parentheses, brackets, apostrophe). -/
def isLabelChar (c : Char) : Bool :=
  isWordChar c || isPySpace c ||
    c = '.' || c = '-' || c = '(' || c = ')' || c = '[' || c = ']' || c = '\''

/-- Character class of group 1 of `word_def_pattern`:
`[\w\s가-힣()\[\]'\".,]` (the explicit Hangul range is already
contained in `\w`). -/
def isTermChar (c : Char) : Bool :=
  isWordChar c || isPySpace c ||
    c = '(' || c = ')' || c = '[' || c = ']' || c = '\'' || c = '"' || c = '.' || c = ','

/-- Character class of group 2 of `word_def_pattern`: the term class plus
semicolon, exclamation mark and question mark. -/
def isDefChar (c : Char) : Bool :=
  isTermChar c || c = ';' || c = '!' || c = '?'

/-- Single-character separators accepted by `word_def_pattern`:
the character class `[:\-–]` (colon, hyphen, en-dash). -/
def isSepChar (c : Char) : Bool :=
  c = ':' || c = '-' || c = '–'

/-- Line-boundary characters of Python `str.splitlines`. -/
def isLineBreak (c : Char) : Bool :=
  c = '\n' || c = '\r' || c = '\x0b' || c = '\x0c' ||
    c = '\x1c' || c = '\x1d' || c = '\x1e' || c = '\x85' ||
    c = '\u2028' || c = '\u2029'

/-- Python `str.strip()`: drop leading and trailing whitespace. -/
def pyStrip (l : List Char) : List Char :=
  ((l.dropWhile isPySpace).reverse.dropWhile isPySpace).reverse

/-- Worker for `str.splitlines`: `acc` holds the current line reversed.
A `"\r\n"` pair counts as a single boundary; a trailing boundary does
not create a final empty line. -/
def splitlinesAux : List Char → List Char → List (List Char)
  | [], acc => if acc = [] then [] else [acc.reverse]
  | c :: cs, acc =>
    if c = '\r' then
      match cs with
      | [] => acc.reverse :: splitlinesAux [] []
      | c2 :: cs2 =>
        if c2 = '\n' then acc.reverse :: splitlinesAux cs2 []
        else acc.reverse :: splitlinesAux (c2 :: cs2) []
    else if isLineBreak c then acc.reverse :: splitlinesAux cs []
    else splitlinesAux cs (c :: acc)

/-- Python `str.splitlines()`. -/
def pySplitlines (l : List Char) : List (List Char) :=
  splitlinesAux l []

/-- The Latin chapter keyword, lower-cased. -/
def chapterKw : List Char := ['c', 'h', 'a', 'p', 't', 'e', 'r']

/-- The Hangul chapter keyword. -/
def danwonKw : List Char := ['단', '원']

/-- Case-insensitive literal match (the effect of `re.IGNORECASE` on the
keyword alternation): consume `kw` from the front of the input, comparing
lower-cased characters, and return the rest. -/
def lowerEq : List Char → List Char → Option (List Char)
  | rest, [] => some rest
  | [], _ :: _ => none
  | c :: cs, k :: ks => if c.toLower = k then lowerEq cs ks else none

/-- The keyword alternation `(?:Chapter|단원)` with `re.IGNORECASE`:
try the Latin keyword first, then the Hangul one. -/
def matchKeyword (l : List Char) : Option (List Char) :=
  match lowerEq l chapterKw with
  | some rest => some rest
  | none => lowerEq l danwonKw

/-!
`chapter_title_pattern = ^(?:Chapter|단원)\s*([\w\d.\-\s()\[\]']+)[:–\s]*?(.*)`
used with `.match` (anchored at the line start), `re.IGNORECASE`.

Derived backtracking behaviour, with `p` the input after the keyword:

* `\s*` is greedy: it first takes the maximal whitespace run of `p`.
* Group 1 `([...]+)` is greedy: it takes the maximal run of label
  characters after that whitespace.  If that run is non-empty the match
  is fixed, because `[:–\s]*?` is lazy (matches zero characters) and
  `(.*)` always succeeds on the remainder.  So group 2 starts right
  after group 1 and the lazy separator never consumes anything.
* If the label run after the whitespace is empty, the engine backtracks
  `\s*` by one character; whitespace is itself a label character, so
  group 1 becomes that single whitespace character (greedy from there it
  stops immediately, the next character being neither whitespace nor a
  label character), and group 2 is the remainder.
* If there is neither whitespace nor a label character after the
  keyword, the match fails (group 1 needs at least one character).
-/

/-- Match of `chapter_title_pattern` against a line, returning the raw
captures (group 1, group 2), or `none` when the line is not a heading. -/
def chapterMatch (l : List Char) : Option (List Char × List Char) :=
  match matchKeyword l with
  | none => none
  | some p =>
    let afterWs := p.dropWhile isPySpace
    let g := afterWs.takeWhile isLabelChar
    if g = [] then
      if p.takeWhile isPySpace = [] then none
      else some ([(p.takeWhile isPySpace).getLast?.getD ' '], afterWs)
    else some (g, afterWs.drop g.length)

/-!
`word_def_pattern =
  ^([\w\s가-힣()\[\]'\".,]+?)\s*(?:[:\-–]|(?<=\S)\t)\s*([\w\s가-힣()\[\]'\".,;!?]+)`

Derived backtracking behaviour:

* Group 1 is lazy: the engine tries every prefix of term characters,
  shortest first, and keeps the first prefix for which the rest of the
  pattern matches.  If a character outside the term class is reached
  before any tail matches, the whole match fails.
* For a fixed group 1, the tail `\s*(sep)\s*(D+)` is explored as
  follows: the first `\s*` takes the maximal whitespace run and then
  backtracks one character at a time; at each position the engine tries
  the separator class `[:\-–]` and then a tab guarded by the look-behind
  `(?<=\S)` (the previous character in the line must not be whitespace).
* After a separator, the second `\s*` is greedy and the definition group
  `(D+)` takes the maximal run of definition characters; since
  whitespace belongs to the definition class, when the run after the
  whitespace is empty the engine backtracks the second `\s*` by one
  character and the definition group captures that single whitespace
  character.
-/

/-- Tail of `word_def_pattern` after the separator: `\s*([defchars]+)`.
Returns the raw group-2 capture. -/
def defsMatch (t : List Char) : Option (List Char) :=
  let n2 := (t.takeWhile isPySpace).length
  let d := (t.drop n2).takeWhile isDefChar
  if d = [] then
    if n2 = 0 then none else some [(t.take n2).getLast?.getD ' ']
  else some d

/-- Try the separator alternation of `word_def_pattern` at offset `m`
inside `rest` (the first `\s*` having consumed `m` characters); `prev`
is the character immediately before `rest` in the line, used by the
`(?<=\S)` look-behind when `m = 0`. -/
def sepTry (prev : Char) (rest : List Char) (m : Nat) : Option (List Char) :=
  match rest.drop m with
  | [] => none
  | c :: after =>
    if isSepChar c then defsMatch after
    else if c = '\t' then
      if isPySpace (if m = 0 then prev else (rest.take m).getLast?.getD prev) then none
      else defsMatch after
    else none

/-- Backtracking loop of the first `\s*` of the separator part: try the
separator at offsets `m`, `m-1`, ..., `0`. -/
def tailLoop (prev : Char) (rest : List Char) : Nat → Option (List Char)
  | 0 => sepTry prev rest 0
  | m + 1 =>
    match sepTry prev rest (m + 1) with
    | some g2 => some g2
    | none => tailLoop prev rest m

/-- Match of `\s*(?:[:\-–]|(?<=\S)\t)\s*(D+)` at the start of `rest`,
with `prev` the character before `rest`; the first `\s*` starts at its
maximal (greedy) width. -/
def tailMatch (prev : Char) (rest : List Char) : Option (List Char) :=
  tailLoop prev rest (rest.takeWhile isPySpace).length

/-- Lazy scan of group 1 of `word_def_pattern`: `acc` is the reversed
group-1 candidate (non-empty); extend it one term character at a time,
testing the tail of the pattern first at each width. -/
def wdAux : List Char → List Char → Option (List Char × List Char)
  | acc, [] =>
    match tailMatch (acc.headD ' ') [] with
    | some g2 => some (acc.reverse, g2)
    | none => none
  | acc, c :: cs =>
    match tailMatch (acc.headD ' ') (c :: cs) with
    | some g2 => some (acc.reverse, g2)
    | none => if isTermChar c then wdAux (c :: acc) cs else none

/-- Match of `word_def_pattern` against a line, returning the raw
captures (group 1, group 2), or `none`. -/
def wordDefMatch (l : List Char) : Option (List Char × List Char) :=
  match l with
  | [] => none
  | c :: cs => if isTermChar c then wdAux [c] cs else none

/-- Classification of a stripped, non-blank line, with the precedence of
the source: the heading pattern is tried before the term pattern. -/
inductive LineClass where
  | heading (g1 g2 : List Char)
  | pair (w d : List Char)
  | noise
deriving DecidableEq, Repr

/-- Classify one line as in the loop body of `parse_text_to_chapters`. -/
def classify (line : List Char) : LineClass :=
  match chapterMatch line with
  | some (g1, g2) => .heading g1 g2
  | none =>
    match wordDefMatch line with
    | some (w, d) => .pair w d
    | none => .noise

/-- One chapter of the output: `{"name": ..., "words": [...]}`. -/
structure Chapter where
  name : String
  words : List (String × String)
deriving DecidableEq, Repr

/-- The initial chapter name `"Default Chapter"`. -/
def defaultName : String := "Default Chapter"

/-- Accumulation state of the parse loop: emitted chapters, current
chapter name, current word list. -/
structure PState where
  chapters : List Chapter
  name : String
  words : List (String × String)
deriving DecidableEq, Repr

/-- Python `s.endswith(':') or s.endswith('–') or s.endswith('-')`. -/
def endsWithSepChar (l : List Char) : Bool :=
  match l.getLast? with
  | some c => c = ':' || c = '–' || c = '-'
  | none => false

/-- Chapter-name assignment from the two raw captures
(pdf_parser.py lines 76-94); `numChapters` is the number of chapters
already emitted (after the flush). -/
def headingName (g1raw g2raw : List Char) (numChapters : Nat) : String :=
  let g1 := pyStrip g1raw
  let g2 := pyStrip g2raw
  let nm : List Char :=
    if g2 ≠ [] then
      let g1' := if endsWithSepChar g1 then pyStrip g1.dropLast else g1
      if g1' ≠ [] then g1' ++ (':' :: ' ' :: g2) else g2
    else if g1 ≠ [] then
      if endsWithSepChar g1 then pyStrip g1.dropLast else g1
    else ("Unnamed Chapter " ++ toString (numChapters + 1)).data
  if nm = [] then String.mk (("Unnamed Chapter " ++ toString (numChapters + 1)).data)
  else String.mk nm

/-- Flush of the chapter being accumulated when a new heading is found
(pdf_parser.py lines 63-72), translated condition for condition; the
innermost `append` is dead code in the source and is kept as is. -/
def headingFlush (chs : List Chapter) (name : String) (ws : List (String × String)) :
    List Chapter :=
  if ws ≠ [] ∨ name ≠ defaultName then
    if chs = [] ∧ name = defaultName ∧ ws = [] then
      if ws ≠ [] then chs ++ [⟨name, ws⟩] else chs
    else if name ≠ defaultName ∨ ws ≠ [] then chs ++ [⟨name, ws⟩]
    else chs
  else chs

/-- Loop body of `parse_text_to_chapters` for one raw line (pdf_parser.py
lines 56-108): strip, skip blanks, try the heading pattern, then the
term pattern; record a pair only when both parts are non-empty after
stripping. -/
def stepLine (st : PState) (rawLine : List Char) : PState :=
  let line := pyStrip rawLine
  if line = [] then st
  else
    match classify line with
    | .heading g1raw g2raw =>
      let chs := headingFlush st.chapters st.name st.words
      ⟨chs, headingName g1raw g2raw chs.length, []⟩
    | .pair wraw draw =>
      let w := pyStrip wraw
      let d := pyStrip draw
      if w ≠ [] ∧ d ≠ [] then
        ⟨st.chapters, st.name, st.words ++ [(String.mk w, String.mk d)]⟩
      else st
    | .noise => st

/-- Append of the last accumulated chapter (pdf_parser.py lines 111-113). -/
def flushLast (st : PState) : List Chapter :=
  if st.name ≠ defaultName ∨ st.words ≠ [] then st.chapters ++ [⟨st.name, st.words⟩]
  else st.chapters

/-- Condition `chapters[0]["name"] == "Default Chapter" and not
chapters[0]["words"]`, evaluated safely on the head. -/
def firstIsEmptyDefault (chs : List Chapter) : Bool :=
  match chs with
  | c0 :: _ => c0.name == defaultName && c0.words.isEmpty
  | [] => false

/-- Post-processing after the line loop (pdf_parser.py lines 111-125). -/
def finish (st : PState) : List Chapter :=
  let chs := flushLast st
  if chs = [] ∧ st.name = defaultName ∧ st.words = [] then []
  else if chs.length > 1 ∧ firstIsEmptyDefault chs = true then chs.tail
  else if chs.length = 1 ∧ firstIsEmptyDefault chs = true then []
  else chs

/-- The initial accumulation state. -/
def initState : PState := ⟨[], defaultName, []⟩

/-- The line loop over the split input. -/
def runLines (raw : List Char) : PState :=
  (pySplitlines raw).foldl stepLine initState

/-- `parse_text_to_chapters` (pdf_parser.py lines 21-125). -/
def parse_text_to_chapters (raw : String) : List Chapter :=
  if raw.data = [] then []
  else finish (runLines raw.data)

/-- Post-processing with the two partial operations modelled: the
subscript `chapters[0]` and `chapters.pop(0)` return `none` instead of
raising; the source guards both with length tests, evaluated with
Python short-circuiting. -/
def finishE (st : PState) : Option (List Chapter) :=
  let chs := flushLast st
  if chs = [] ∧ st.name = defaultName ∧ st.words = [] then some []
  else if chs.length > 1 then
    match chs.head? with
    | none => none
    | some c0 =>
      if c0.name = defaultName ∧ c0.words = [] then
        match chs with
        | [] => none
        | _ :: t => some t
      else some chs
  else if chs.length = 1 then
    match chs.head? with
    | none => none
    | some c0 => if c0.name = defaultName ∧ c0.words = [] then some [] else some chs
  else some chs

/-- `parse_text_to_chapters` with exceptions modelled: `none` means the
Python function raises. -/
def parse_text_to_chaptersE (raw : String) : Option (List Chapter) :=
  if raw.data = [] then some []
  else finishE (runLines raw.data)

/-- One quiz question as built by `generate_quiz_questions`:
`{id, term, options, answer}`. -/
structure Question where
  id : String
  term : String
  options : List String
  answer : String
deriving DecidableEq, Repr

/-- Deterministic stand-in for the `random` module: `sample pool k`
picks `k` elements, `shuffle` permutes a list.  Theorems quantify over
all records satisfying `SampleSpec` and `ShuffleSpec`. -/
structure Rng where
  sample : List String → Nat → List String
  shuffle : List String → List String

/-- Contract of `random.sample pool k` for a valid count `k ≤ |pool|`:
the result has exactly `k` elements, all drawn from the pool. -/
def SampleSpec (r : Rng) : Prop :=
  ∀ pool k, k ≤ pool.length →
    (r.sample pool k).length = k ∧ ∀ x ∈ r.sample pool k, x ∈ pool

/-- Contract of `random.shuffle`: the result is a permutation. -/
def ShuffleSpec (r : Rng) : Prop :=
  ∀ l, (r.shuffle l).Perm l

/-- `random.sample` with its count given as a Python `int`: raises
(`none`) unless `0 ≤ k ≤ len(pool)`. -/
def sampleE (r : Rng) (pool : List String) (k : Int) : Option (List String) :=
  if 0 ≤ k ∧ k ≤ (pool.length : Int) then some (r.sample pool k.toNat) else none

/-- Option-list construction for one entry of `generate_quiz_questions`
(app.py lines 103-128): `[correct] + sampled-or-all distractors`,
then shuffled; `none` when `random.sample` raises. -/
def genQuestion (r : Rng) (allDefs : List String) (numOptions : Int) (i : Nat)
    (term correct : String) : Option Question :=
  let distractors := allDefs.filter (fun d => d ≠ correct)
  let numPick : Int := numOptions - 1
  let opts? :=
    if (distractors.length : Int) ≥ numPick then
      (sampleE r distractors numPick).map (fun s => correct :: s)
    else some (correct :: distractors)
  opts?.map (fun opts => ⟨"q" ++ toString i, term, r.shuffle opts, correct⟩)

/-- The enumeration loop of `generate_quiz_questions`; `i` is the
zero-based index feeding the question id. -/
def genAux (r : Rng) (allDefs : List String) (numOptions : Int) :
    Nat → List (String × String) → Option (List Question)
  | _, [] => some []
  | i, (t, c) :: rest =>
    match genQuestion r allDefs numOptions i t c with
    | none => none
    | some q =>
      match genAux r allDefs numOptions (i + 1) rest with
      | none => none
      | some qs => some (q :: qs)

/-- `generate_quiz_questions` (app.py lines 92-129); `none` means the
Python function raises. -/
def generate_quiz_questions (r : Rng) (words : List (String × String))
    (numOptions : Int) : Option (List Question) :=
  if words = [] ∨ words.length < 1 then some []
  else genAux r (words.map Prod.snd) numOptions 0 words

/-- Grading of one question in `submit_quiz` (app.py lines 174-180):
`user_answers.get(id)` is `none` when the id was not submitted, and
`None == correct_answer` is false in Python. -/
def gradeOne (ans : String → Option String) (q : Question) : Bool :=
  match ans q.id with
  | some a => a == q.answer
  | none => false

/-- The score accumulated by the grading loop of `submit_quiz`. -/
def quizScore (ans : String → Option String) (qs : List Question) : Nat :=
  List.countP (fun q => gradeOne ans q) qs

/-- A concrete `Rng` used for closed-form evaluations: `sample` takes
the first `k` elements, `shuffle` is the identity. -/
def rng0 : Rng := ⟨fun pool k => pool.take k, fun l => l⟩

/-! ### Helper lemmas on the character classes -/

theorem pySpace_cases {c : Char} (h : isPySpace c = true) :
    c = ' ' ∨ c = '\t' ∨ c = '\n' ∨ c = '\r' ∨ c = '\x0b' ∨ c = '\x0c' := by
  simp [isPySpace] at h
  tauto

theorem wordChar_not_space {c : Char} (h : isWordChar c = true) : isPySpace c = false := by
  cases hs : isPySpace c with
  | false => rfl
  | true =>
    rcases pySpace_cases hs with rfl | rfl | rfl | rfl | rfl | rfl <;>
      exact absurd h (by decide)

theorem wordChar_not_sep {c : Char} (h : isWordChar c = true) : isSepChar c = false := by
  cases hs : isSepChar c with
  | false => rfl
  | true =>
    have hc : c = ':' ∨ c = '-' ∨ c = '–' := by
      simp [isSepChar] at hs
      tauto
    rcases hc with rfl | rfl | rfl <;> exact absurd h (by decide)

theorem wordChar_ne_tab {c : Char} (h : isWordChar c = true) : c ≠ '\t' := by
  intro e
  rw [e] at h
  exact absurd h (by decide)

theorem wordChar_not_break {c : Char} (h : isWordChar c = true) : isLineBreak c = false := by
  cases hs : isLineBreak c with
  | false => rfl
  | true =>
    have hc : c = '\n' ∨ c = '\r' ∨ c = '\x0b' ∨ c = '\x0c' ∨ c = '\x1c' ∨ c = '\x1d' ∨
        c = '\x1e' ∨ c = '\x85' ∨ c = ' ' ∨ c = ' ' := by
      simp [isLineBreak] at hs
      tauto
    rcases hc with rfl | rfl | rfl | rfl | rfl | rfl | rfl | rfl | rfl | rfl <;>
      exact absurd h (by decide)

theorem wordChar_term {c : Char} (h : isWordChar c = true) : isTermChar c = true := by
  simp [isTermChar, h]

theorem wordChar_def {c : Char} (h : isWordChar c = true) : isDefChar c = true := by
  simp [isDefChar, isTermChar, h]

/-! ### Helper lemmas on list scanning -/

theorem dropWhile_head_false {p : Char → Bool} {c : Char} {cs : List Char}
    (h : p c = false) : (c :: cs).dropWhile p = c :: cs := by
  simp [List.dropWhile_cons, h]

theorem pyStrip_eq_self {l : List Char}
    (h1 : ∀ c, l.head? = some c → isPySpace c = false)
    (h2 : ∀ c, l.getLast? = some c → isPySpace c = false) : pyStrip l = l := by
  cases l with
  | nil => rfl
  | cons a as =>
    have ha : isPySpace a = false := h1 a rfl
    unfold pyStrip
    rw [dropWhile_head_false ha]
    have hrw : (a :: as).reverse.dropWhile isPySpace = (a :: as).reverse := by
      cases hrev : (a :: as).reverse with
      | nil => rfl
      | cons b bs =>
        have hb : (a :: as).getLast? = some b := by
          rw [← List.head?_reverse, hrev]
          rfl
        exact dropWhile_head_false (h2 b hb)
    rw [hrw, List.reverse_reverse]

theorem pyStrip_all_space {l : List Char} (h : ∀ c ∈ l, isPySpace c = true) :
    pyStrip l = [] := by
  unfold pyStrip
  rw [List.dropWhile_eq_nil_iff.mpr h]
  rfl

/-! ### Splitlines lemmas -/

theorem splitlinesAux_step {c : Char} {cs acc : List Char} (h : ¬(c = '\r'))
    (h2 : isLineBreak c = false) :
    splitlinesAux (c :: cs) acc = splitlinesAux cs (c :: acc) := by
  rw [splitlinesAux.eq_def]
  simp only [if_neg h, h2, if_neg (by simp : ¬(false = true))]

theorem splitlinesAux_break {c : Char} {cs acc : List Char} (h : ¬(c = '\r'))
    (h2 : isLineBreak c = true) :
    splitlinesAux (c :: cs) acc = acc.reverse :: splitlinesAux cs [] := by
  rw [splitlinesAux.eq_def]
  simp only [if_neg h, h2, if_true]

theorem splitlinesAux_no_break :
    ∀ (l : List Char), (∀ c ∈ l, isLineBreak c = false) →
      ∀ acc : List Char, acc ≠ [] ∨ l ≠ [] →
        splitlinesAux l acc = [acc.reverse ++ l] := by
  intro l
  induction l with
  | nil =>
    intro _ acc hne
    rcases hne with hne | hne
    · simp [splitlinesAux, hne]
    · exact absurd rfl hne
  | cons c cs ih =>
    intro h acc _
    have hc : isLineBreak c = false := h c (by simp)
    have hcr : ¬(c = '\r') := by
      intro e
      rw [e] at hc
      exact absurd hc (by decide)
    rw [splitlinesAux_step hcr hc,
      ih (fun x hx => h x (by simp [hx])) (c :: acc) (Or.inl (by simp))]
    simp

theorem splitlinesAux_chars :
    ∀ (n : Nat) (l acc : List Char), l.length ≤ n →
      ∀ line ∈ splitlinesAux l acc, ∀ c ∈ line, c ∈ l ∨ c ∈ acc := by
  intro n
  induction n with
  | zero =>
    intro l acc hl line hline c hc
    have hnil : l = [] := List.length_eq_zero.mp (Nat.le_zero.mp hl)
    subst hnil
    by_cases hacc : acc = []
    · simp [splitlinesAux, hacc] at hline
    · rw [splitlinesAux, if_neg hacc] at hline
      simp at hline
      subst hline
      exact Or.inr (List.mem_reverse.mp hc)
  | succ n ih =>
    intro l acc hl line hline c hc
    cases l with
    | nil =>
      by_cases hacc : acc = []
      · simp [splitlinesAux, hacc] at hline
      · rw [splitlinesAux, if_neg hacc] at hline
        simp at hline
        subst hline
        exact Or.inr (List.mem_reverse.mp hc)
    | cons a as =>
      simp only [List.length_cons, Nat.succ_le_succ_iff] at hl
      by_cases ha : a = '\r'
      · subst ha
        cases as with
        | nil =>
          rw [splitlinesAux.eq_def] at hline
          simp [splitlinesAux] at hline
          subst hline
          exact Or.inr (List.mem_reverse.mp hc)
        | cons b bs =>
          by_cases hb : b = '\n'
          · subst hb
            rw [splitlinesAux.eq_def] at hline
            simp only [if_pos rfl] at hline
            rcases List.mem_cons.mp hline with h1 | h1
            · subst h1
              exact Or.inr (List.mem_reverse.mp hc)
            · rcases ih bs [] (by simp at hl; omega) line h1 c hc with h2 | h2
              · exact Or.inl (by simp [h2])
              · simp at h2
          · rw [splitlinesAux.eq_def] at hline
            simp only [if_pos rfl, if_neg hb] at hline
            rcases List.mem_cons.mp hline with h1 | h1
            · subst h1
              exact Or.inr (List.mem_reverse.mp hc)
            · rcases ih (b :: bs) [] hl line h1 c hc with h2 | h2
              · exact Or.inl (by simp [List.mem_cons] at h2 ⊢; tauto)
              · simp at h2
      · by_cases hbr : isLineBreak a = true
        · rw [splitlinesAux_break ha hbr] at hline
          rcases List.mem_cons.mp hline with h1 | h1
          · subst h1
            exact Or.inr (List.mem_reverse.mp hc)
          · rcases ih as [] hl line h1 c hc with h2 | h2
            · exact Or.inl (by simp [h2])
            · simp at h2
        · rw [splitlinesAux_step ha (by simpa using hbr)] at hline
          rcases ih as (a :: acc) hl line hline c hc with h2 | h2
          · exact Or.inl (by simp [h2])
          · rcases List.mem_cons.mp h2 with h3 | h3
            · exact Or.inl (by simp [h3])
            · exact Or.inr h3

theorem pySplitlines_chars {l : List Char} {line : List Char}
    (hline : line ∈ pySplitlines l) {c : Char} (hc : c ∈ line) : c ∈ l := by
  rcases splitlinesAux_chars l.length l [] le_rfl line hline c hc with h | h
  · exact h
  · simp at h

/-! ### Post-processing: the checked variant never fails -/

theorem firstIsEmptyDefault_cons {c0 : Chapter} {t : List Chapter} :
    firstIsEmptyDefault (c0 :: t) = true ↔ c0.name = defaultName ∧ c0.words = [] := by
  simp [firstIsEmptyDefault, List.isEmpty_iff]

theorem finishE_eq_finish (st : PState) : finishE st = some (finish st) := by
  unfold finishE finish
  by_cases h0 : flushLast st = [] ∧ st.name = defaultName ∧ st.words = []
  · rw [if_pos h0, if_pos h0]
  · rw [if_neg h0, if_neg h0]
    cases hc : flushLast st with
    | nil => simp [firstIsEmptyDefault]
    | cons c0 t =>
      by_cases hp : c0.name = defaultName ∧ c0.words = []
      · cases t with
        | nil => simp [firstIsEmptyDefault, hp.1, hp.2]
        | cons c1 t1 => simp [firstIsEmptyDefault, hp.1, hp.2]
      · cases t with
        | nil => simp [firstIsEmptyDefault_cons, hp]
        | cons c1 t1 => simp [firstIsEmptyDefault_cons, hp]

/-- C2: for every input string the parser terminates and never raises.
Termination holds because `parse_text_to_chapters` is a total,
structurally recursive Lean function; this theorem settles the
no-exception half: the variant `parse_text_to_chaptersE`, in which every
partial operation of the source (`chapters[0]`, `chapters.pop(0)`)
returns `none` instead of raising, always returns `some` of the value of
the total function, for every string. -/
theorem parse_total_no_raise (s : String) :
    parse_text_to_chaptersE s = some (parse_text_to_chapters s) := by
  unfold parse_text_to_chaptersE parse_text_to_chapters
  by_cases hd : s.data = []
  · rw [if_pos hd, if_pos hd]
  · rw [if_neg hd, if_neg hd]
    exact finishE_eq_finish _

/-! ### The default-chapter invariant (C4) -/

/-- Invariant: an emitted chapter carrying the default name has words. -/
def ChInv (chs : List Chapter) : Prop :=
  ∀ c ∈ chs, c.name = defaultName → c.words ≠ []

theorem chInv_append {chs : List Chapter} {nm : String} {ws : List (String × String)}
    (h : ChInv chs) (hg : nm ≠ defaultName ∨ ws ≠ []) :
    ChInv (chs ++ [⟨nm, ws⟩]) := by
  intro c hc hname
  rcases List.mem_append.mp hc with h1 | h1
  · exact h c h1 hname
  · simp at h1
    subst h1
    rcases hg with hg | hg
    · exact absurd hname hg
    · exact hg

theorem headingFlush_inv {chs : List Chapter} {nm : String} {ws : List (String × String)}
    (h : ChInv chs) : ChInv (headingFlush chs nm ws) := by
  unfold headingFlush
  by_cases h1 : ws ≠ [] ∨ nm ≠ defaultName
  · rw [if_pos h1]
    by_cases h2 : chs = [] ∧ nm = defaultName ∧ ws = []
    · rw [if_pos h2]
      by_cases h3 : ws ≠ []
      · exact absurd h2.2.2 h3
      · rw [if_neg h3]
        exact h
    · rw [if_neg h2]
      by_cases h3 : nm ≠ defaultName ∨ ws ≠ []
      · rw [if_pos h3]
        exact chInv_append h h3
      · rw [if_neg h3]
        exact h
  · rw [if_neg h1]
    exact h

theorem flushLast_inv {st : PState} (h : ChInv st.chapters) : ChInv (flushLast st) := by
  unfold flushLast
  by_cases h1 : st.name ≠ defaultName ∨ st.words ≠ []
  · rw [if_pos h1]
    exact chInv_append h h1
  · rw [if_neg h1]
    exact h

theorem finish_inv {st : PState} (h : ChInv st.chapters) : ChInv (finish st) := by
  have hfl : ChInv (flushLast st) := flushLast_inv h
  unfold finish
  by_cases h0 : flushLast st = [] ∧ st.name = defaultName ∧ st.words = []
  · rw [if_pos h0]
    intro c hc
    simp at hc
  · rw [if_neg h0]
    by_cases h1 : (flushLast st).length > 1 ∧ firstIsEmptyDefault (flushLast st) = true
    · rw [if_pos h1]
      intro c hc
      exact hfl c ((List.tail_sublist _).subset hc)
    · rw [if_neg h1]
      by_cases h2 : (flushLast st).length = 1 ∧ firstIsEmptyDefault (flushLast st) = true
      · rw [if_pos h2]
        intro c hc
        simp at hc
      · rw [if_neg h2]
        exact hfl

theorem stepLine_inv {st : PState} (h : ChInv st.chapters) (line : List Char) :
    ChInv (stepLine st line).chapters := by
  unfold stepLine
  by_cases hl : pyStrip line = []
  · rw [if_pos hl]
    exact h
  · rw [if_neg hl]
    cases classify (pyStrip line) with
    | heading g1 g2 =>
      dsimp only
      exact headingFlush_inv h
    | pair w d =>
      dsimp only
      by_cases hp : pyStrip w ≠ [] ∧ pyStrip d ≠ []
      · rw [if_pos hp]
        exact h
      · rw [if_neg hp]
        exact h
    | noise => exact h

theorem foldl_inv :
    ∀ (lines : List (List Char)) (st : PState), ChInv st.chapters →
      ChInv (lines.foldl stepLine st).chapters := by
  intro lines
  induction lines with
  | nil => exact fun st h => h
  | cons x xs ih =>
    intro st h
    exact ih (stepLine st x) (stepLine_inv h x)

/-- C4: no chapter of the output carries the default name together with
an empty term list; the implicit default chapter appears in the output
only when it collected at least one term. -/
theorem default_chapter_never_empty (s : String) (c : Chapter)
    (hc : c ∈ parse_text_to_chapters s) (hn : c.name = defaultName) :
    c.words ≠ [] := by
  unfold parse_text_to_chapters at hc
  by_cases hd : s.data = []
  · rw [if_pos hd] at hc
    simp at hc
  · rw [if_neg hd] at hc
    have hinv : ChInv (runLines s.data).chapters :=
      foldl_inv _ initState (fun c hc => by simp [initState] at hc)
    exact finish_inv hinv c hc hn

/-- Witness for C4 at a concrete input: the default chapter produced by
a single orphan term line is in the output and indeed has words. -/
theorem default_chapter_never_empty_witness :
    (⟨defaultName, [("A", "B")]⟩ : Chapter) ∈ parse_text_to_chapters "A : B" ∧
      (⟨defaultName, [("A", "B")]⟩ : Chapter).words ≠ [] :=
  ⟨by decide,
    default_chapter_never_empty "A : B" ⟨defaultName, [("A", "B")]⟩ (by decide) rfl⟩

/-! ### Whitespace-only input (C3) -/

theorem foldl_skip_ws :
    ∀ (lines : List (List Char)) (st : PState),
      (∀ line ∈ lines, ∀ c ∈ line, isPySpace c = true) →
      lines.foldl stepLine st = st := by
  intro lines
  induction lines with
  | nil => exact fun st _ => rfl
  | cons x xs ih =>
    intro st h
    have hx : pyStrip x = [] := pyStrip_all_space (h x (by simp))
    have hstep : stepLine st x = st := by
      unfold stepLine
      rw [if_pos hx]
    show List.foldl stepLine (stepLine st x) xs = st
    rw [hstep]
    exact ih st (fun line hl => h line (by simp [hl]))

/-- C3: the empty string parses to the empty chapter list, and so does
every string made only of whitespace characters. -/
theorem parse_empty_and_whitespace :
    parse_text_to_chapters "" = [] ∧
      ∀ s : String, (∀ c ∈ s.data, isPySpace c = true) →
        parse_text_to_chapters s = [] := by
  refine ⟨rfl, ?_⟩
  intro s hs
  unfold parse_text_to_chapters
  by_cases hd : s.data = []
  · rw [if_pos hd]
  · rw [if_neg hd]
    have hrun : runLines s.data = initState := by
      unfold runLines
      exact foldl_skip_ws _ _
        (fun line hl c hc => hs c (pySplitlines_chars hl hc))
    rw [hrun]
    rfl

/-- Witness for C3 at a concrete whitespace-only string. -/
theorem parse_empty_and_whitespace_witness :
    parse_text_to_chapters " \t\n " = [] :=
  parse_empty_and_whitespace.2 " \t\n " (by decide)

/-! ### Grading (C9) -/

/-- C9: submitting exactly the correct answer for every question id
yields a score equal to the question count, and a question whose id is
missing from the submitted mapping (the mapping returns `none`) is
graded incorrect. -/
theorem quiz_grading_roundtrip (qs : List Question) (ans : String → Option String) :
    ((∀ q ∈ qs, ans q.id = some q.answer) → quizScore ans qs = qs.length) ∧
      ∀ q ∈ qs, ans q.id = none → gradeOne ans q = false := by
  constructor
  · intro h
    unfold quizScore
    refine List.countP_eq_length.mpr (fun q hq => ?_)
    simp [gradeOne, h q hq]
  · intro q _ hnone
    simp [gradeOne, hnone]

/-- Witness for C9: a one-question quiz graded against the full correct
mapping scores 1, and against the empty mapping the question is
incorrect. -/
theorem quiz_grading_roundtrip_witness :
    quizScore (fun i => if i = "q0" then some "A" else none)
        [⟨"q0", "ant", ["A", "B"], "A"⟩] =
      ([⟨"q0", "ant", ["A", "B"], "A"⟩] : List Question).length ∧
      gradeOne (fun _ => none) ⟨"q0", "ant", ["A", "B"], "A"⟩ = false :=
  ⟨(quiz_grading_roundtrip [⟨"q0", "ant", ["A", "B"], "A"⟩]
        (fun i => if i = "q0" then some "A" else none)).1 (by decide),
    (quiz_grading_roundtrip [⟨"q0", "ant", ["A", "B"], "A"⟩] (fun _ => none)).2
      ⟨"q0", "ant", ["A", "B"], "A"⟩ (by decide) rfl⟩

/-! ### Concrete parses (C1, C5, C7) -/

/-- C1 counterexample: on the spec example
`"Chapter 1: A\nFoo : Bar\nChapter 2: B\nBaz : Qux"` the chapter names
are not `"Chapter 1: A"` and `"Chapter 2: B"` as claimed: the regex
places the keyword outside both captures and its lazy separator
`[:–\s]*?` consumes nothing (so group 2 keeps the `": "`), giving
`"1: : A"` and `"2: : B"`. -/
theorem c1_names_counterexample :
    (parse_text_to_chapters "Chapter 1: A\nFoo : Bar\nChapter 2: B\nBaz : Qux").map
        Chapter.name ≠ ["Chapter 1: A", "Chapter 2: B"] := by
  decide

/-- C1 amended: the example input yields exactly two chapters in input
order with the claimed term lists, but with names `"1: : A"` and
`"2: : B"`. -/
theorem c1_two_chapters_amended :
    parse_text_to_chapters "Chapter 1: A\nFoo : Bar\nChapter 2: B\nBaz : Qux" =
      [⟨"1: : A", [("Foo", "Bar")]⟩, ⟨"2: : B", [("Baz", "Qux")]⟩] := by
  decide

/-- C5: an explicitly declared chapter that accumulated no terms is
retained: the example input yields exactly two chapters, the first with
zero terms, the second with exactly the pair `("Help", "Assistance")`. -/
theorem explicit_empty_chapter_retained :
    (parse_text_to_chapters
        "Chapter 1: Empty Section\n\nChapter 2: Useful Words\nHelp : Assistance").map
        Chapter.words = [[], [("Help", "Assistance")]] := by
  decide

/-- C7 counterexample: a line consisting of the chapter keyword alone
(empty label, no separator text) is not matched by the heading pattern
at all (group 1 needs at least one character), so it produces no chapter
rather than one named `"Unnamed Chapter 1"`. -/
theorem unnamed_fallback_counterexample :
    parse_text_to_chapters "Chapter" = [] := by
  decide

/-- C7 amended: the `"Unnamed Chapter {n}"` fallback is reached through
the final empty-name check instead: a heading line whose label strips to
a bare separator (here `"Chapter -"`) gets the fallback name with
`n = 1 +` the number of chapters already emitted. -/
theorem unnamed_fallback_amended :
    parse_text_to_chapters "Chapter 1: A\nFoo : Bar\nChapter -" =
      [⟨"1: : A", [("Foo", "Bar")]⟩, ⟨"Unnamed Chapter 2", []⟩] := by
  decide

/-! ### Heading recognition (C10) -/

theorem lowerEq_append :
    ∀ (k kw x : List Char), k.map Char.toLower = kw → lowerEq (k ++ x) kw = some x := by
  intro k
  induction k with
  | nil =>
    intro kw x h
    simp at h
    subst h
    simp [lowerEq]
  | cons a as ih =>
    intro kw x h
    cases kw with
    | nil => simp at h
    | cons b bs =>
      simp at h
      rw [List.cons_append]
      show lowerEq (a :: (as ++ x)) (b :: bs) = some x
      rw [lowerEq, if_pos h.1]
      exact ih bs x h.2

theorem lowerEq_head_ne {a : Char} {l : List Char} {k : Char} {ks : List Char}
    (h : ¬(a.toLower = k)) : lowerEq (a :: l) (k :: ks) = none := by
  rw [lowerEq, if_neg h]

theorem matchKeyword_of_kw {k x : List Char}
    (hk : k.map Char.toLower = chapterKw ∨ k = danwonKw) :
    matchKeyword (k ++ x) = some x := by
  rcases hk with h | h
  · unfold matchKeyword
    rw [lowerEq_append k chapterKw x h]
  · subst h
    unfold matchKeyword
    rw [show chapterKw = ['c', 'h', 'a', 'p', 't', 'e', 'r'] from rfl,
      show (danwonKw ++ x : List Char) = '단' :: '원' :: x from rfl,
      lowerEq_head_ne (by decide)]
    exact lowerEq_append ['단', '원'] danwonKw x (by decide)

theorem chapterMatch_some (k : List Char) (c : Char) (rest : List Char)
    (hk : k.map Char.toLower = chapterKw ∨ k = danwonKw)
    (hc : isLabelChar c = true) :
    ∃ pr, chapterMatch (k ++ c :: rest) = some pr := by
  unfold chapterMatch
  rw [matchKeyword_of_kw hk]
  dsimp only
  by_cases hg : ((c :: rest).dropWhile isPySpace).takeWhile isLabelChar = []
  · rw [if_pos hg]
    have hws : ¬((c :: rest).takeWhile isPySpace = []) := by
      by_cases hsp : isPySpace c = true
      · simp [List.takeWhile_cons, hsp]
      · exfalso
        rw [dropWhile_head_false (by simpa using hsp), List.takeWhile_cons, if_pos hc] at hg
        cases hg
    rw [if_neg hws]
    exact ⟨_, rfl⟩
  · rw [if_neg hg]
    exact ⟨_, rfl⟩

/-- C10: heading recognition is case-insensitive on the Latin keyword
and requires no boundary after it: every trimmed line beginning with
`"chapter"` in any letter case (or with `"단원"`) followed by at least
one label character is classified as a chapter heading, and is therefore
never recorded as a term/definition pair. -/
theorem heading_keyword_priority (k : List Char) (c : Char) (rest : List Char)
    (hk : k.map Char.toLower = chapterKw ∨ k = danwonKw)
    (hc : isLabelChar c = true)
    (_htrim : pyStrip (k ++ c :: rest) = k ++ c :: rest) :
    (∃ g1 g2, classify (k ++ c :: rest) = LineClass.heading g1 g2) ∧
      ∀ w d, classify (k ++ c :: rest) ≠ LineClass.pair w d := by
  obtain ⟨⟨g1, g2⟩, hpr⟩ := chapterMatch_some k c rest hk hc
  constructor
  · exact ⟨g1, g2, by simp [classify, hpr]⟩
  · intro w d hcontra
    rw [classify, hpr] at hcontra
    cases hcontra

/-- Witness for C10: the line `"Chapters"` (keyword plus the label
character `s`) is classified as a heading, not as a term pair. -/
theorem heading_keyword_priority_witness :
    (∃ g1 g2,
        classify (['C', 'h', 'a', 'p', 't', 'e', 'r'] ++ 's' :: []) =
          LineClass.heading g1 g2) ∧
      ∀ w d,
        classify (['C', 'h', 'a', 'p', 't', 'e', 'r'] ++ 's' :: []) ≠
          LineClass.pair w d :=
  heading_keyword_priority ['C', 'h', 'a', 'p', 't', 'e', 'r'] 's' []
    (Or.inl (by decide)) (by decide) (by decide)

/-! ### Quiz generation (C8) -/

theorem genQuestion_ok (r : Rng) (allDefs : List String) (n : Int) (i : Nat)
    (t c : String) (hs : SampleSpec r) (hsh : ShuffleSpec r) (hn : 1 ≤ n) :
    ∃ q, genQuestion r allDefs n i t c = some q ∧
      q.answer ∈ q.options ∧ 1 ≤ q.options.length ∧ (q.options.length : Int) ≤ n := by
  unfold genQuestion
  dsimp only
  have hpick : (0 : Int) ≤ n - 1 := by omega
  by_cases hge : (n - 1 : Int) ≤ ((allDefs.filter (fun d => d ≠ c)).length : Int)
  · rw [if_pos hge]
    unfold sampleE
    rw [if_pos ⟨hpick, hge⟩]
    have hkle : (n - 1 : Int).toNat ≤ (allDefs.filter (fun d => d ≠ c)).length :=
      Int.toNat_le.mpr hge
    obtain ⟨hlen, _⟩ := hs (allDefs.filter (fun d => d ≠ c)) _ hkle
    refine ⟨_, rfl, ?_, ?_, ?_⟩
    · exact ((hsh _).mem_iff).mpr (by simp)
    · rw [(hsh _).length_eq]
      simp
    · rw [(hsh _).length_eq]
      simp only [List.length_cons, hlen]
      push_cast
      rw [Int.toNat_of_nonneg hpick]
      omega
  · rw [if_neg hge]
    refine ⟨_, rfl, ?_, ?_, ?_⟩
    · exact ((hsh _).mem_iff).mpr (by simp)
    · rw [(hsh _).length_eq]
      simp
    · rw [(hsh _).length_eq]
      simp only [List.length_cons]
      push_cast
      omega

theorem genAux_ok (r : Rng) (allDefs : List String) (n : Int)
    (hs : SampleSpec r) (hsh : ShuffleSpec r) (hn : 1 ≤ n) :
    ∀ (ws : List (String × String)) (i : Nat),
      ∃ qs, genAux r allDefs n i ws = some qs ∧
        ∀ q ∈ qs, q.answer ∈ q.options ∧ 1 ≤ q.options.length ∧
          (q.options.length : Int) ≤ n := by
  intro ws
  induction ws with
  | nil =>
    intro i
    exact ⟨[], rfl, by simp⟩
  | cons p rest ih =>
    intro i
    obtain ⟨t, c⟩ := p
    obtain ⟨q, hq, hqok⟩ := genQuestion_ok r allDefs n i t c hs hsh hn
    obtain ⟨qs, hqs, hqsok⟩ := ih (i + 1)
    refine ⟨q :: qs, ?_, ?_⟩
    · rw [genAux, hq, hqs]
    · intro x hx
      rcases List.mem_cons.mp hx with h1 | h1
      · subst h1
        exact hqok
      · exact hqsok x h1

/-- C8 amended: for every term list and every options count of at least
one, `generate_quiz_questions` returns (without raising) a question list
in which every question contains its correct answer among its options
and has between 1 and `numOptions` options; this holds for every
sampler satisfying the `random.sample` contract and every shuffler that
permutes. -/
theorem quiz_options_sound (r : Rng) (words : List (String × String)) (numOptions : Int)
    (hs : SampleSpec r) (hsh : ShuffleSpec r) (hn : 1 ≤ numOptions) :
    ∃ qs, generate_quiz_questions r words numOptions = some qs ∧
      ∀ q ∈ qs, q.answer ∈ q.options ∧ 1 ≤ q.options.length ∧
        (q.options.length : Int) ≤ numOptions := by
  unfold generate_quiz_questions
  by_cases hw : words = [] ∨ words.length < 1
  · rw [if_pos hw]
    exact ⟨[], rfl, by simp⟩
  · rw [if_neg hw]
    exact genAux_ok r (words.map Prod.snd) numOptions hs hsh hn words 0

theorem rng0_sample_spec : SampleSpec rng0 := by
  intro pool k hk
  constructor
  · simpa [rng0] using hk
  · intro x hx
    exact (List.take_sublist _ _).subset hx

theorem rng0_shuffle_spec : ShuffleSpec rng0 :=
  fun l => List.Perm.refl l

/-- C8 counterexample: with an options count of `0` (allowed by the
claim, which quantifies over every count) the source computes
`num_distractors_to_pick = -1`, passes the length test, and
`random.sample` raises `ValueError`; the model returns `none`, so no
question list satisfying the claimed bounds is produced. -/
theorem quiz_options_counterexample :
    generate_quiz_questions rng0 [("ant", "A"), ("bee", "B")] 0 = none := by
  decide

/-- Witness for the amended C8 at a concrete sampler, word list and the
default count 4. -/
theorem quiz_options_sound_witness :
    ∃ qs, generate_quiz_questions rng0 [("ant", "A"), ("bee", "B")] 4 = some qs ∧
      ∀ q ∈ qs, q.answer ∈ q.options ∧ 1 ≤ q.options.length ∧
        (q.options.length : Int) ≤ 4 :=
  quiz_options_sound rng0 [("ant", "A"), ("bee", "B")] 4 rng0_sample_spec
    rng0_shuffle_spec (by decide)

/-! ### Separator equivalence (C6) -/

theorem sepChar_not_space {c : Char} (h : isSepChar c = true) : isPySpace c = false := by
  have hc : c = ':' ∨ c = '-' ∨ c = '–' := by
    simp [isSepChar] at h
    tauto
  rcases hc with rfl | rfl | rfl <;> decide

theorem takeWhile_word_head {p : Char → Bool} {c : Char} {cs : List Char}
    (h : p c = false) : (c :: cs).takeWhile p = [] := by
  rw [List.takeWhile_cons, if_neg (by simp [h])]

theorem defsMatch_words {d : List Char} (hd : d ≠ [])
    (hdc : ∀ x ∈ d, isWordChar x = true) : defsMatch d = some d := by
  obtain ⟨dh, dt, rfl⟩ := List.exists_cons_of_ne_nil hd
  have htw : (dh :: dt).takeWhile isPySpace = [] :=
    takeWhile_word_head (wordChar_not_space (hdc dh (by simp)))
  have htd : (dh :: dt).takeWhile isDefChar = dh :: dt :=
    List.takeWhile_eq_self_iff.mpr (fun x hx => wordChar_def (hdc x hx))
  unfold defsMatch
  dsimp only
  rw [htw]
  simp only [List.length_nil, List.drop_zero]
  rw [htd, if_neg (by simp)]

theorem defsMatch_space_words {d : List Char} (hd : d ≠ [])
    (hdc : ∀ x ∈ d, isWordChar x = true) : defsMatch (' ' :: d) = some d := by
  obtain ⟨dh, dt, rfl⟩ := List.exists_cons_of_ne_nil hd
  have htw : (' ' :: dh :: dt).takeWhile isPySpace = [' '] := by
    rw [List.takeWhile_cons, if_pos (by decide),
      takeWhile_word_head (wordChar_not_space (hdc dh (by simp)))]
  have htd : (dh :: dt).takeWhile isDefChar = dh :: dt :=
    List.takeWhile_eq_self_iff.mpr (fun x hx => wordChar_def (hdc x hx))
  unfold defsMatch
  dsimp only
  rw [htw]
  simp only [List.length_cons, List.length_nil, Nat.zero_add, List.drop_succ_cons,
    List.drop_zero]
  rw [htd, if_neg (by simp)]

theorem tailMatch_word_head {prev c : Char} {cs : List Char}
    (h : isWordChar c = true) : tailMatch prev (c :: cs) = none := by
  unfold tailMatch
  rw [takeWhile_word_head (wordChar_not_space h)]
  rw [show ([] : List Char).length = 0 from rfl, tailLoop]
  unfold sepTry
  simp only [List.drop_zero]
  rw [if_neg (by simp [wordChar_not_sep h]), if_neg (wordChar_ne_tab h)]

theorem tailMatch_sep {prev sep : Char} {d : List Char} (hsep : isSepChar sep = true)
    (hd : d ≠ []) (hdc : ∀ x ∈ d, isWordChar x = true) :
    tailMatch prev (' ' :: sep :: ' ' :: d) = some d := by
  have htw : (' ' :: sep :: ' ' :: d).takeWhile isPySpace = [' '] := by
    rw [List.takeWhile_cons, if_pos (by decide),
      takeWhile_word_head (sepChar_not_space hsep)]
  unfold tailMatch
  rw [htw, show ([' '] : List Char).length = 1 from rfl, show (1 : Nat) = 0 + 1 from rfl,
    tailLoop]
  have hst : sepTry prev (' ' :: sep :: ' ' :: d) (0 + 1) = some d := by
    unfold sepTry
    simp only [List.drop_succ_cons, List.drop_zero]
    rw [if_pos hsep]
    exact defsMatch_space_words hd hdc
  rw [hst]

theorem tailMatch_tab {prev : Char} {d : List Char} (hprev : isWordChar prev = true)
    (hd : d ≠ []) (hdc : ∀ x ∈ d, isWordChar x = true) :
    tailMatch prev ('\t' :: d) = some d := by
  obtain ⟨dh, dt, rfl⟩ := List.exists_cons_of_ne_nil hd
  have htw : ('\t' :: dh :: dt).takeWhile isPySpace = ['\t'] := by
    rw [List.takeWhile_cons, if_pos (by decide),
      takeWhile_word_head (wordChar_not_space (hdc dh (by simp)))]
  unfold tailMatch
  rw [htw, show (['\t'] : List Char).length = 1 from rfl, show (1 : Nat) = 0 + 1 from rfl,
    tailLoop]
  have h1 : sepTry prev ('\t' :: dh :: dt) (0 + 1) = none := by
    unfold sepTry
    simp only [List.drop_succ_cons, List.drop_zero]
    rw [if_neg (by simp [wordChar_not_sep (hdc dh (by simp))]),
      if_neg (wordChar_ne_tab (hdc dh (by simp)))]
  rw [h1]
  rw [tailLoop]
  unfold sepTry
  simp only [List.drop_zero]
  rw [if_neg (by decide)]
  simp only [if_true]
  rw [if_neg (by simp [wordChar_not_space hprev])]
  exact defsMatch_words (by simp) hdc

theorem wdAux_through :
    ∀ (w2 acc tl : List Char), (∀ x ∈ w2, isWordChar x = true) →
      wdAux acc (w2 ++ tl) = wdAux (w2.reverse ++ acc) tl := by
  intro w2
  induction w2 with
  | nil => intro acc tl _; rfl
  | cons x xs ih =>
    intro acc tl h
    have hx : isWordChar x = true := h x (by simp)
    rw [List.cons_append, wdAux, tailMatch_word_head hx]
    rw [if_pos (wordChar_term hx)]
    rw [ih (x :: acc) tl (fun y hy => h y (by simp [hy]))]
    simp only [List.reverse_cons, List.append_assoc, List.cons_append, List.nil_append]

theorem headD_word {w : List Char} (hw : w ≠ [])
    (hwc : ∀ x ∈ w, isWordChar x = true) :
    isWordChar ((w.reverse).headD ' ') = true := by
  cases hrv : w.reverse with
  | nil =>
    exact absurd (by simpa using congrArg List.reverse hrv) hw
  | cons a as =>
    have ha : a ∈ w := by
      have : a ∈ w.reverse := by rw [hrv]; simp
      exact List.mem_reverse.mp this
    simpa using hwc a ha

theorem wordDefMatch_sep (w d : List Char) (sep : Char) (hsep : isSepChar sep = true)
    (hw : w ≠ []) (hd : d ≠ []) (hwc : ∀ x ∈ w, isWordChar x = true)
    (hdc : ∀ x ∈ d, isWordChar x = true) :
    wordDefMatch (w ++ ' ' :: sep :: ' ' :: d) = some (w, d) := by
  obtain ⟨wh, wt, rfl⟩ := List.exists_cons_of_ne_nil hw
  rw [List.cons_append, wordDefMatch, if_pos (wordChar_term (hwc wh (by simp)))]
  rw [wdAux_through wt [wh] _ (fun x hx => hwc x (by simp [hx]))]
  rw [wdAux, tailMatch_sep hsep hd hdc]
  simp

theorem wordDefMatch_tab (w d : List Char)
    (hw : w ≠ []) (hd : d ≠ []) (hwc : ∀ x ∈ w, isWordChar x = true)
    (hdc : ∀ x ∈ d, isWordChar x = true) :
    wordDefMatch (w ++ '\t' :: d) = some (w, d) := by
  obtain ⟨wh, wt, rfl⟩ := List.exists_cons_of_ne_nil hw
  rw [List.cons_append, wordDefMatch, if_pos (wordChar_term (hwc wh (by simp)))]
  rw [wdAux_through wt [wh] _ (fun x hx => hwc x (by simp [hx]))]
  have hprev : isWordChar ((wt.reverse ++ [wh]).headD ' ') = true := by
    have : wt.reverse ++ [wh] = (wh :: wt).reverse := by simp
    rw [this]
    exact headD_word hw hwc
  rw [wdAux, tailMatch_tab hprev hd hdc]
  simp

theorem pyStrip_word {w : List Char} (hwc : ∀ x ∈ w, isWordChar x = true) :
    pyStrip w = w :=
  pyStrip_eq_self
    (fun c hc =>
      wordChar_not_space (hwc c (List.mem_of_mem_head? (Option.mem_def.mpr hc))))
    (fun c hc =>
      wordChar_not_space (hwc c (List.mem_of_mem_getLast? (Option.mem_def.mpr hc))))

theorem head?_append_word {w : List Char} (t : List Char) (hw : w ≠ [])
    (hwc : ∀ x ∈ w, isWordChar x = true) :
    ∀ c, (w ++ t).head? = some c → isPySpace c = false := by
  intro c hc
  obtain ⟨wh, wt, rfl⟩ := List.exists_cons_of_ne_nil hw
  rw [List.cons_append, List.head?_cons] at hc
  injection hc with hc
  subst hc
  exact wordChar_not_space (hwc wh (by simp))

theorem getLast?_append_word (pre : List Char) {d : List Char} (hd : d ≠ [])
    (hdc : ∀ x ∈ d, isWordChar x = true) :
    ∀ c, (pre ++ d).getLast? = some c → isPySpace c = false := by
  intro c hc
  rw [List.getLast?_append] at hc
  cases hdl : d.getLast? with
  | none => exact absurd (List.getLast?_eq_none_iff.mp hdl) hd
  | some z =>
    rw [hdl] at hc
    have hz : z = c := by
      simpa [Option.or] using hc
    subst hz
    exact wordChar_not_space (hdc z (List.mem_of_mem_getLast? (Option.mem_def.mpr hdl)))

theorem chapterMatch_none_of_kw {l : List Char} (h : matchKeyword l = none) :
    chapterMatch l = none := by
  unfold chapterMatch
  rw [h]

theorem parse_line_pair (line w d : List Char)
    (hne : line ≠ []) (hnb : ∀ c ∈ line, isLineBreak c = false)
    (hstrip : pyStrip line = line)
    (hcm : chapterMatch line = none)
    (hwd : wordDefMatch line = some (w, d))
    (hwne : w ≠ []) (hdne : d ≠ []) (hws : pyStrip w = w) (hds : pyStrip d = d) :
    parse_text_to_chapters (String.mk line) =
      [⟨defaultName, [(String.mk w, String.mk d)]⟩] := by
  unfold parse_text_to_chapters
  rw [show (String.mk line).data = line from rfl, if_neg hne]
  unfold runLines
  have hsplit : pySplitlines line = [line] := by
    unfold pySplitlines
    rw [splitlinesAux_no_break line hnb [] (Or.inr hne)]
    simp
  rw [hsplit]
  show finish (stepLine initState line) = _
  unfold stepLine
  rw [hstrip, if_neg hne]
  unfold classify
  rw [hcm, hwd]
  dsimp only
  rw [hws, hds, if_pos ⟨hwne, hdne⟩]
  dsimp only [initState]
  unfold finish flushLast
  simp [firstIsEmptyDefault, defaultName]

/-- C6 counterexample: the claim fails without an extra condition on the
term string, because a term beginning with the chapter keyword makes the
line a heading whose name depends on the separator: parsing
`"Chapters\tX"` yields the chapter name `"s\tX"` while `"Chapters : X"`
yields `"s: : X"`, so the three separator conventions are not
interchangeable for every word-character term string. -/
theorem separator_equivalence_counterexample :
    parse_text_to_chapters "Chapters\tX" ≠ parse_text_to_chapters "Chapters : X" := by
  decide

theorem lowerEq_append_none :
    ∀ (w kw t : List Char), lowerEq w kw = none →
      (∀ k ∈ kw, ∀ c, t.head? = some c → ¬(c.toLower = k)) →
      lowerEq (w ++ t) kw = none := by
  intro w
  induction w with
  | nil =>
    intro kw t hw ht
    cases kw with
    | nil => exact absurd hw (by simp [lowerEq])
    | cons k ks =>
      cases t with
      | nil => simp [lowerEq]
      | cons c cs =>
        show lowerEq (c :: cs) (k :: ks) = none
        rw [lowerEq, if_neg (ht k (by simp) c rfl)]
  | cons a as ih =>
    intro kw t hw ht
    cases kw with
    | nil => exact absurd hw (by simp [lowerEq])
    | cons k ks =>
      rw [List.cons_append, lowerEq]
      by_cases hak : a.toLower = k
      · rw [if_pos hak]
        rw [lowerEq, if_pos hak] at hw
        exact ih ks t hw (fun k' hk' => ht k' (by simp [hk']))
      · rw [if_neg hak]

theorem matchKeyword_append_none (w t : List Char)
    (hw : matchKeyword w = none)
    (ht1 : ∀ k ∈ chapterKw, ∀ c, t.head? = some c → ¬(c.toLower = k))
    (ht2 : ∀ k ∈ danwonKw, ∀ c, t.head? = some c → ¬(c.toLower = k)) :
    matchKeyword (w ++ t) = none := by
  have hc1 : lowerEq w chapterKw = none := by
    cases h : lowerEq w chapterKw with
    | none => rfl
    | some r =>
      unfold matchKeyword at hw
      rw [h] at hw
      exact absurd hw (by simp)
  have hc2 : lowerEq w danwonKw = none := by
    unfold matchKeyword at hw
    rw [hc1] at hw
    simpa using hw
  unfold matchKeyword
  rw [lowerEq_append_none w chapterKw t hc1 ht1]
  exact lowerEq_append_none w danwonKw t hc2 ht2

/-- A keyword match on a term line cannot complete across the boundary
into the separator part: if `w` itself does not begin with a chapter
keyword and the tail starts with a space or a tab (whose lower case is
never a keyword letter), the whole line does not begin with a keyword
either. -/
theorem matchKeyword_append_ws {w : List Char} (t : List Char) (c0 : Char)
    (hw : matchKeyword w = none) (hh : t.head? = some c0)
    (hc0 : c0 = ' ' ∨ c0 = '\t') :
    matchKeyword (w ++ t) = none := by
  apply matchKeyword_append_none w t hw
  · intro k hk c hc
    rw [hh] at hc
    injection hc with hc
    subst hc
    simp [chapterKw] at hk
    rcases hc0 with rfl | rfl <;>
      rcases hk with rfl | rfl | rfl | rfl | rfl | rfl | rfl <;> decide
  · intro k hk c hc
    rw [hh] at hc
    injection hc with hc
    subst hc
    simp [danwonKw] at hk
    rcases hc0 with rfl | rfl <;> rcases hk with rfl | rfl <;> decide

/-- C6 amended: for every non-empty term string `w` and definition
string `d` of word/Hangul characters, provided `w` does not begin with a
chapter keyword (`matchKeyword w = none`, otherwise the heading pattern
wins), the tab-separated line `w\td`, the colon line `w : d` and the
hyphen line `w - d` all parse to the same single default chapter holding
exactly the pair `(w, d)`. -/
theorem separator_equivalence_amended (w d : List Char) (hw : w ≠ []) (hd : d ≠ [])
    (hwc : ∀ x ∈ w, isWordChar x = true) (hdc : ∀ x ∈ d, isWordChar x = true)
    (hkw : matchKeyword w = none) :
    parse_text_to_chapters (String.mk (w ++ '\t' :: d)) =
        [⟨defaultName, [(String.mk w, String.mk d)]⟩] ∧
      parse_text_to_chapters (String.mk (w ++ ' ' :: ':' :: ' ' :: d)) =
        [⟨defaultName, [(String.mk w, String.mk d)]⟩] ∧
      parse_text_to_chapters (String.mk (w ++ ' ' :: '-' :: ' ' :: d)) =
        [⟨defaultName, [(String.mk w, String.mk d)]⟩] := by
  have hws : pyStrip w = w := pyStrip_word hwc
  have hds : pyStrip d = d := pyStrip_word hdc
  have hwne : ∀ t : List Char, w ++ t ≠ [] := by
    intro t h
    exact hw (List.append_eq_nil.mp h).1
  have hk1 : matchKeyword (w ++ '\t' :: d) = none :=
    matchKeyword_append_ws _ '\t' hkw rfl (Or.inr rfl)
  have hk2 : matchKeyword (w ++ ' ' :: ':' :: ' ' :: d) = none :=
    matchKeyword_append_ws _ ' ' hkw rfl (Or.inl rfl)
  have hk3 : matchKeyword (w ++ ' ' :: '-' :: ' ' :: d) = none :=
    matchKeyword_append_ws _ ' ' hkw rfl (Or.inl rfl)
  refine ⟨?_, ?_, ?_⟩
  · refine parse_line_pair _ w d (hwne _) ?_ ?_ (chapterMatch_none_of_kw hk1)
      (wordDefMatch_tab w d hw hd hwc hdc) hw hd hws hds
    · intro c hc
      rcases List.mem_append.mp hc with h | h
      · exact wordChar_not_break (hwc c h)
      · rcases List.mem_cons.mp h with rfl | h
        · decide
        · exact wordChar_not_break (hdc c h)
    · refine pyStrip_eq_self (head?_append_word _ hw hwc) ?_
      intro c hc
      refine getLast?_append_word (w ++ ['\t']) hd hdc c ?_
      rw [show (w ++ ['\t']) ++ d = w ++ '\t' :: d by simp]
      exact hc
  · refine parse_line_pair _ w d (hwne _) ?_ ?_ (chapterMatch_none_of_kw hk2)
      (wordDefMatch_sep w d ':' (by decide) hw hd hwc hdc) hw hd hws hds
    · intro c hc
      rcases List.mem_append.mp hc with h | h
      · exact wordChar_not_break (hwc c h)
      · rcases List.mem_cons.mp h with rfl | h
        · decide
        · rcases List.mem_cons.mp h with rfl | h
          · decide
          · rcases List.mem_cons.mp h with rfl | h
            · decide
            · exact wordChar_not_break (hdc c h)
    · refine pyStrip_eq_self (head?_append_word _ hw hwc) ?_
      intro c hc
      refine getLast?_append_word (w ++ [' ', ':', ' ']) hd hdc c ?_
      rw [show (w ++ [' ', ':', ' ']) ++ d = w ++ ' ' :: ':' :: ' ' :: d by simp]
      exact hc
  · refine parse_line_pair _ w d (hwne _) ?_ ?_ (chapterMatch_none_of_kw hk3)
      (wordDefMatch_sep w d '-' (by decide) hw hd hwc hdc) hw hd hws hds
    · intro c hc
      rcases List.mem_append.mp hc with h | h
      · exact wordChar_not_break (hwc c h)
      · rcases List.mem_cons.mp h with rfl | h
        · decide
        · rcases List.mem_cons.mp h with rfl | h
          · decide
          · rcases List.mem_cons.mp h with rfl | h
            · decide
            · exact wordChar_not_break (hdc c h)
    · refine pyStrip_eq_self (head?_append_word _ hw hwc) ?_
      intro c hc
      refine getLast?_append_word (w ++ [' ', '-', ' ']) hd hdc c ?_
      rw [show (w ++ [' ', '-', ' ']) ++ d = w ++ ' ' :: '-' :: ' ' :: d by simp]
      exact hc

/-- Witness for the amended C6 at `w = "Foo"`, `d = "Bar"`. -/
theorem separator_equivalence_amended_witness :
    parse_text_to_chapters (String.mk (['F', 'o', 'o'] ++ '\t' :: ['B', 'a', 'r'])) =
        [⟨defaultName, [(String.mk ['F', 'o', 'o'], String.mk ['B', 'a', 'r'])]⟩] ∧
      parse_text_to_chapters
          (String.mk (['F', 'o', 'o'] ++ ' ' :: ':' :: ' ' :: ['B', 'a', 'r'])) =
        [⟨defaultName, [(String.mk ['F', 'o', 'o'], String.mk ['B', 'a', 'r'])]⟩] ∧
      parse_text_to_chapters
          (String.mk (['F', 'o', 'o'] ++ ' ' :: '-' :: ' ' :: ['B', 'a', 'r'])) =
        [⟨defaultName, [(String.mk ['F', 'o', 'o'], String.mk ['B', 'a', 'r'])]⟩] :=
  separator_equivalence_amended ['F', 'o', 'o'] ['B', 'a', 'r'] (by decide) (by decide)
    (by decide) (by decide) (by decide)
